import Mathlib

/-!
Verification of the black-hole 2D simulator core (Schwarzschild null-geodesic
integrator, fixed-timestep scheduler, trail ring buffer, deflection validator).

The definitions below are a shallow embedding of the Python source under
`src/missions/` (primary tree `coding/python/black-hole-simulator-2d`).
Machine floats are modelled as elements of an arbitrary linear ordered field
`K` (instantiated at `ℚ` for concrete evaluations and at `ℝ` for analytic
statements); trigonometric and linear-algebra library calls that the source
makes (`np.cos`, `np.sin`, `np.linalg.svd`, `np.arccos`) are passed in as
function parameters, since the embedding only tracks how the source combines
their results.
-/

namespace BH

section Integrator

variable {K : Type} [LinearOrderedField K]

/-- Acceleration of the reduced null-geodesic equation, from the body of
`Mission7LightBending._rk4_step`: `acc(u) = -u + 3 M u²`. -/
def acc (M u : K) : K := -u + 3 * M * (u * u)

/-- One RK4 step for the system `u' = up, up' = acc u`, transcribed from
`Mission7LightBending._rk4_step`.  Returns `(u_next, up_next)`. -/
def rk4_step (u up M dphi : K) : K × K :=
  let k1_u := up
  let k1_up := acc M u
  let k2_u := up + (1 / 2) * dphi * k1_up
  let k2_up := acc M (u + (1 / 2) * dphi * k1_u)
  let k3_u := up + (1 / 2) * dphi * k2_up
  let k3_up := acc M (u + (1 / 2) * dphi * k2_u)
  let k4_u := up + dphi * k3_up
  let k4_up := acc M (u + dphi * k3_u)
  (u + (dphi / 6) * (k1_u + 2 * k2_u + 2 * k3_u + k4_u),
   up + (dphi / 6) * (k1_up + 2 * k2_up + 2 * k3_up + k4_up))

/-- Componentwise sum of two state vectors `(u, up)`. -/
def addP (a b : K × K) : K × K := (a.1 + b.1, a.2 + b.2)

/-- Scalar multiple of a state vector `(u, up)`. -/
def smulP (c : K) (a : K × K) : K × K := (c * a.1, c * a.2)

/-- Modelled from the spec: the right-hand side of the first-order system,
`f (u, up) = (up, acc u)`. -/
def rhsSpec (M : K) (y : K × K) : K × K := (y.2, acc M y.1)

/-- Modelled from the spec: one classical 4th-order Runge-Kutta step for the
second-order system `u'' = -u + 3 M u²`, written exactly as the spec words it:
four stage evaluations of the acceleration combined with the standard
`1/6 (k1 + 2 k2 + 2 k3 + k4)` weighted average, acting on the state vector. -/
def rk4_step_spec (u up M dphi : K) : K × K :=
  let y : K × K := (u, up)
  let k1 := rhsSpec M y
  let k2 := rhsSpec M (addP y (smulP (dphi / 2) k1))
  let k3 := rhsSpec M (addP y (smulP (dphi / 2) k2))
  let k4 := rhsSpec M (addP y (smulP dphi k3))
  addP y (smulP (dphi / 6) (addP k1 (addP (smulP 2 k2) (addP (smulP 2 k3) k4))))

/-- C1: for every `u`, `u'`, geometric mass `M` and step `dphi`, the geodesic
step function of the source equals the classical 4th-order Runge-Kutta update
of the system `u'' = -u + 3·M·u²` (four stage evaluations of
`acc u = -u + 3 M u²` combined with the standard `1/6 (k1+2k2+2k3+k4)`
average).  Being a total Lean function of exactly these four arguments, it is
pure and deterministic, and its definition contains no conditional, so it
never branches on the sign of `u`. -/
theorem C1_rk4_step_is_classical_rk4 (u up M dphi : K) :
    rk4_step u up M dphi = rk4_step_spec u up M dphi := by
  simp only [rk4_step, rk4_step_spec, rhsSpec, addP, smulP, acc, Prod.mk.injEq]
  constructor <;> ring

end Integrator

section TrailBuffer

variable {α : Type}

/-- Trail ring buffer shared by all rays: `buf` is the circular storage of
rows (one row per physics substep; a row holds the data of every ray), and
`head` is the index of the next slot to overwrite.  Mirrors the fields
`trail_positions` / `trail_head` of `Mission6FixedTimestep`. -/
structure Trail (α : Type) where
  buf : List α
  head : ℕ

/-- One `record` call, from the body of `Mission6FixedTimestep.update`:
`trail_positions[trail_head] = row; trail_head = (trail_head + 1) % trail_len`. -/
def Trail.record (t : Trail α) (x : α) : Trail α :=
  ⟨t.buf.set t.head x, (t.head + 1) % t.buf.length⟩

/-- A sequence of `record` calls, one per physics substep. -/
def Trail.recordMany (t : Trail α) (xs : List α) : Trail α :=
  xs.foldl Trail.record t

/-- Snapshot for rendering, from `Mission6FixedTimestep.update`:
`order = (arange(trail_len) + trail_head) % trail_len; flat = positions[order]`
— the rows read starting at `head` and wrapping modulo the capacity. -/
def Trail.snapshot (t : Trail α) (d : α) : List α :=
  (List.range t.buf.length).map (fun k => t.buf.getD ((t.head + k) % t.buf.length) d)

theorem Trail.record_buf_length (t : Trail α) (x : α) :
    (t.record x).buf.length = t.buf.length := by
  simp [Trail.record]

theorem Trail.recordMany_buf_length (t : Trail α) (xs : List α) :
    (t.recordMany xs).buf.length = t.buf.length := by
  induction xs generalizing t with
  | nil => rfl
  | cons x xs ih =>
    simp only [Trail.recordMany, List.foldl_cons] at *
    rw [ih (t.record x), Trail.record_buf_length]

theorem Trail.record_head_lt (t : Trail α) (x : α) (hh : t.head < t.buf.length) :
    (t.record x).head < (t.record x).buf.length := by
  simp only [Trail.record, List.length_set]
  exact Nat.mod_lt _ (by omega)

theorem Trail.recordMany_head (t : Trail α) (xs : List α)
    (hh : t.head < t.buf.length) :
    (t.recordMany xs).head = (t.head + xs.length) % t.buf.length := by
  induction xs generalizing t with
  | nil => simp [Trail.recordMany, Nat.mod_eq_of_lt hh]
  | cons x xs ih =>
    have h1 := ih (t.record x) (t.record_head_lt x hh)
    simp only [Trail.recordMany, List.foldl_cons] at *
    rw [h1]
    simp only [Trail.record, List.length_set, List.length_cons]
    rw [Nat.mod_add_mod]
    congr 1
    omega

theorem mod_shift_ne (n a j : ℕ) (hj : 0 < j) (hj2 : j < n) :
    (a + j) % n ≠ a % n := by
  intro heq
  have hmod : a ≡ a + j [MOD n] := heq.symm
  have hdvd : n ∣ a + j - a := (Nat.modEq_iff_dvd' (Nat.le_add_right a j)).mp hmod
  simp only [Nat.add_sub_cancel_left] at hdvd
  exact absurd (Nat.le_of_dvd hj hdvd) (by omega)

/-- `recordMany` leaves alone any slot that none of its writes target. -/
theorem Trail.recordMany_getD_untouched (t : Trail α) (xs : List α) (d : α)
    (hh : t.head < t.buf.length) (i : ℕ)
    (hfar : ∀ j < xs.length, i ≠ (t.head + j) % t.buf.length) :
    (t.recordMany xs).buf.getD i d = t.buf.getD i d := by
  induction xs generalizing t with
  | nil => rfl
  | cons x xs ih =>
    have hlen : 0 < t.buf.length := by omega
    have hne : i ≠ t.head := by
      have := hfar 0 (by simp)
      simpa [Nat.mod_eq_of_lt hh] using this
    have hstep : (t.record x).buf.getD i d = t.buf.getD i d := by
      simp only [Trail.record]
      by_cases hi : i < t.buf.length
      · rw [List.getD_eq_getElem _ _ (by simpa using hi),
          List.getD_eq_getElem _ _ hi]
        exact List.getElem_set_ne (Ne.symm hne) (by simpa using hi)
      · rw [List.getD_eq_default _ _ (by simpa using (Nat.le_of_not_lt hi)),
          List.getD_eq_default _ _ (Nat.le_of_not_lt hi)]
    have hfar2 : ∀ j < xs.length, i ≠ ((t.record x).head + j) % (t.record x).buf.length := by
      intro j hj
      have hj1 := hfar (j + 1) (by simp; omega)
      simp only [Trail.record, List.length_set]
      rw [Nat.mod_add_mod]
      rw [show t.head + 1 + j = t.head + (j + 1) by omega]
      exact hj1
    simp only [Trail.recordMany, List.foldl_cons] at *
    rw [ih (t.record x) (t.record_head_lt x hh) hfar2, hstep]

/-- Slot characterization: after `recordMany xs`, the `m`-th recorded row
(counting from the first of the run) sits at slot `(head₀ + m) % capacity`,
provided the later writes of the run did not wrap onto it. -/
theorem Trail.recordMany_getD (t : Trail α) (xs : List α) (d : α)
    (hh : t.head < t.buf.length) (m : ℕ) (hm : m < xs.length)
    (hc : xs.length ≤ m + t.buf.length) :
    (t.recordMany xs).buf.getD ((t.head + m) % t.buf.length) d = xs.getD m d := by
  induction xs generalizing t m with
  | nil => exact absurd hm (by simp)
  | cons x xs ih =>
    have hlen : 0 < t.buf.length := by omega
    simp only [Trail.recordMany, List.foldl_cons]
    match m with
    | 0 =>
      have hset : (t.record x).buf.getD t.head d = x := by
        simp only [Trail.record]
        rw [List.getD_eq_getElem _ _ (by simpa using hh)]
        exact List.getElem_set_self (by simpa using hh)
      have hxs : xs.length + 1 ≤ t.buf.length := by simpa using hc
      have hfar : ∀ j < xs.length,
          t.head ≠ ((t.record x).head + j) % (t.record x).buf.length := by
        intro j hj
        simp only [Trail.record, List.length_set]
        rw [Nat.mod_add_mod]
        have hne := mod_shift_ne t.buf.length t.head (1 + j) (by omega) (by omega)
        rw [Nat.mod_eq_of_lt hh] at hne
        rw [show t.head + 1 + j = t.head + (1 + j) by omega]
        exact fun hcontra => hne hcontra.symm
      have huntouched := Trail.recordMany_getD_untouched (t.record x) xs d
        (t.record_head_lt x hh) t.head hfar
      simp only [Trail.recordMany] at huntouched
      rw [Nat.add_zero, Nat.mod_eq_of_lt hh, huntouched, hset, List.getD_cons_zero]
    | Nat.succ m' =>
      have hrw : (t.head + (m' + 1)) % t.buf.length
          = ((t.record x).head + m') % (t.record x).buf.length := by
        simp only [Trail.record, List.length_set]
        rw [Nat.mod_add_mod]
        congr 1
        omega
      rw [hrw]
      have := ih (t.record x) (t.record_head_lt x hh) m'
        (by simpa using Nat.lt_of_succ_lt_succ (by simpa using hm))
        (by simp only [Trail.record_buf_length]; simp at hc; omega)
      simp only [Trail.recordMany] at this
      rw [this, List.getD_cons_succ]

theorem Trail.snapshot_getD (t : Trail α) (d : α) (p : ℕ) (hp : p < t.buf.length) :
    (t.snapshot d).getD p d = t.buf.getD ((t.head + p) % t.buf.length) d := by
  simp only [Trail.snapshot]
  rw [List.getD_eq_getElem _ _ (by simpa using hp)]
  simp

/-- C3: after any sequence of `record()` calls, the snapshot read for
rendering ends with the last `min(N, capacity)` recorded rows in
chronological order (oldest first): snapshot position
`capacity - min(N, capacity) + k` holds recorded row `N - min(N, capacity) + k`.
Moreover the newest sample sits at slot `(head - 1) mod capacity`
(expressed as `(head + capacity - 1) % capacity`), which is the claim's
equivalent reading-order invariant. -/
theorem C3_trail_ring_order (t : Trail α) (xs : List α) (d : α)
    (hh : t.head < t.buf.length) :
    (∀ k < min xs.length t.buf.length,
      ((t.recordMany xs).snapshot d).getD
          (t.buf.length - min xs.length t.buf.length + k) d
        = xs.getD (xs.length - min xs.length t.buf.length + k) d)
    ∧ (0 < xs.length →
      (t.recordMany xs).buf.getD
          (((t.recordMany xs).head + t.buf.length - 1) % t.buf.length) d
        = xs.getD (xs.length - 1) d) := by
  have hlen : (t.recordMany xs).buf.length = t.buf.length :=
    t.recordMany_buf_length xs
  have hcap : 0 < t.buf.length := by omega
  have hhead : (t.recordMany xs).head = (t.head + xs.length) % t.buf.length :=
    t.recordMany_head xs hh
  constructor
  · intro k hk
    have hmin1 : min xs.length t.buf.length ≤ xs.length := Nat.min_le_left _ _
    have hmin2 : min xs.length t.buf.length ≤ t.buf.length := Nat.min_le_right _ _
    have hp : t.buf.length - min xs.length t.buf.length + k < t.buf.length := by omega
    have hs := (t.recordMany xs).snapshot_getD d
      (t.buf.length - min xs.length t.buf.length + k) (by omega)
    rw [hlen] at hs
    rw [hs, hhead, Nat.mod_add_mod]
    have hidx : (t.head + xs.length + (t.buf.length - min xs.length t.buf.length + k))
        % t.buf.length
        = (t.head + (xs.length - min xs.length t.buf.length + k)) % t.buf.length := by
      rw [show t.head + xs.length + (t.buf.length - min xs.length t.buf.length + k)
          = t.head + (xs.length - min xs.length t.buf.length + k) + t.buf.length by omega,
        Nat.add_mod_right]
    rw [hidx]
    exact t.recordMany_getD xs d hh _ (by omega) (by omega)
  · intro hN
    have hidx : ((t.recordMany xs).head + t.buf.length - 1) % t.buf.length
        = (t.head + (xs.length - 1)) % t.buf.length := by
      rw [hhead]
      rw [show (t.head + xs.length) % t.buf.length + t.buf.length - 1
          = (t.head + xs.length) % t.buf.length + (t.buf.length - 1) by omega,
        Nat.mod_add_mod,
        show t.head + xs.length + (t.buf.length - 1)
          = t.head + (xs.length - 1) + t.buf.length by omega,
        Nat.add_mod_right]
    rw [hidx]
    exact t.recordMany_getD xs d hh _ (by omega) (by omega)

theorem C3_trail_ring_order_witness :
    ((((⟨[7, 7, 7], 0⟩ : Trail ℕ).recordMany [1, 2, 3, 4]).snapshot 0).getD
        (3 - min 4 3 + 0) 0 = [1, 2, 3, 4].getD (4 - min 4 3 + 0) 0)
    ∧ (((⟨[7, 7, 7], 0⟩ : Trail ℕ).recordMany [1, 2, 3, 4]).buf.getD
        ((((⟨[7, 7, 7], 0⟩ : Trail ℕ).recordMany [1, 2, 3, 4]).head + 3 - 1) % 3) 0
      = [1, 2, 3, 4].getD (4 - 1) 0) :=
  ⟨(C3_trail_ring_order (⟨[7, 7, 7], 0⟩ : Trail ℕ) [1, 2, 3, 4] 0 (by decide)).1
      0 (by decide),
   (C3_trail_ring_order (⟨[7, 7, 7], 0⟩ : Trail ℕ) [1, 2, 3, 4] 0 (by decide)).2
      (by decide)⟩

/-- Reallocation of the ring buffer, transcribed from
`Mission6FixedTimestep._resize_trail`: clamp the request to `[8, 4096]`,
short-circuit when unchanged, default-fill with the rays' current head
positions, then copy `k = min(old_len, new_len)` rows
`dst = new_len - k + j ← src = (head - (k-1-j)) mod old_len`, and reset
`head` to `0`. -/
def Trail.resize_trail (t : Trail α) (headsNow : α) (newLenReq : ℕ) : Trail α :=
  let L := max 8 (min newLenReq 4096)
  if L = t.buf.length then t
  else if t.buf.length = 0 then ⟨List.replicate L headsNow, 0⟩
  else
    let oldLen := t.buf.length
    let k := min oldLen L
    let h := t.head % oldLen
    ⟨(List.range L).map (fun i =>
        if L - k ≤ i then
          let j : ℤ := (i : ℤ) - ((L : ℤ) - (k : ℤ))
          let src : ℤ := ((h : ℤ) - ((k : ℤ) - 1 - j)) % (oldLen : ℤ)
          t.buf.getD src.toNat headsNow
        else headsNow),
      0⟩

/-- C4 (refuted): resizing a full capacity-64 ring holding chronological
samples `0,…,63` (slot `i` = sample `i`, `head = 0`) down to capacity 32
keeps rows `33,…,63` followed by row `0` — it drops the 32nd-most-recent
sample (`32`) and re-inserts the very oldest sample (`0`) as the newest —
instead of the 32 most-recently recorded samples `32,…,63` that the claim
(and the function's own comments) promise.  The lower clamp bound of the
claim does hold (a request of 5 is clamped to 8). -/
theorem C4_resize_drops_most_recent_sample :
    ((⟨List.range 64, 0⟩ : Trail ℕ).resize_trail 999 32).buf
        = List.range' 33 31 ++ [0]
    ∧ ((⟨List.range 64, 0⟩ : Trail ℕ).resize_trail 999 32).buf
        ≠ List.range' 32 32
    ∧ ((⟨List.range 64, 0⟩ : Trail ℕ).resize_trail 999 5).buf.length = 8 := by
  decide

end TrailBuffer

section Scheduler

variable {K : Type} [LinearOrderedField K] [FloorRing K]

/-- One call of the fixed-timestep accumulator, from
`Mission6FixedTimestep.update`: accumulate the frame time `dt`, execute
`min(int(accum / fixed_dt), max_substeps)` fixed substeps, and subtract the
consumed time.  The state pair carries
`(accumulator, total substeps executed so far)`. -/
def schedStep (fixed : K) (maxS : ℕ) (s : K × ℕ) (dt : K) : K × ℕ :=
  let a := s.1 + dt
  let n := min (Int.toNat ⌊a / fixed⌋) maxS
  (a - (n : K) * fixed, s.2 + n)

/-- A run of the scheduler: one `update(dt)` call per list entry. -/
def schedRun (fixed : K) (maxS : ℕ) (s : K × ℕ) (dts : List K) : K × ℕ :=
  dts.foldl (schedStep fixed maxS) s

/-- Whether the per-frame substep demand stays within the `max_substeps`
safety cap throughout a run started at accumulator `a`. -/
def noCap (fixed : K) (maxS : ℕ) : K → List K → Bool
  | _, [] => true
  | a, dt :: rest =>
    let n := Int.toNat ⌊(a + dt) / fixed⌋
    decide (n ≤ maxS)
      && noCap fixed maxS (a + dt - ((min n maxS : ℕ) : K) * fixed) rest

/-- Run invariant of the scheduler when the cap never binds: the final
accumulator is the total input time minus the consumed substeps, and it
stays in `[0, fixed)`. -/
theorem schedRun_spec (fixed : K) (hf : 0 < fixed) (maxS : ℕ) (dts : List K)
    (a0 : K) (k0 : ℕ) (hp : ∀ dt ∈ dts, 0 ≤ dt)
    (h0 : 0 ≤ a0) (h1 : a0 < fixed)
    (hnc : noCap fixed maxS a0 dts = true) :
    (schedRun fixed maxS (a0, k0) dts).1
        = a0 + dts.sum
          - (((schedRun fixed maxS (a0, k0) dts).2 - k0 : ℕ) : K) * fixed
    ∧ 0 ≤ (schedRun fixed maxS (a0, k0) dts).1
    ∧ (schedRun fixed maxS (a0, k0) dts).1 < fixed
    ∧ k0 ≤ (schedRun fixed maxS (a0, k0) dts).2 := by
  induction dts generalizing a0 k0 with
  | nil =>
    exact ⟨by simp [schedRun], by simpa [schedRun] using h0,
      by simpa [schedRun] using h1, by simp [schedRun]⟩
  | cons dt dts ih =>
    have hdt : 0 ≤ dt := hp dt (by simp)
    have hprest : ∀ d ∈ dts, 0 ≤ d := fun d hd => hp d (by simp [hd])
    simp only [noCap, Bool.and_eq_true, decide_eq_true_eq] at hnc
    obtain ⟨hcap, hncrest⟩ := hnc
    set a : K := a0 + dt with ha
    have hA : 0 ≤ a := by linarith
    have hfl0 : (0 : ℤ) ≤ ⌊a / fixed⌋ := by
      rw [Int.le_floor]
      push_cast
      exact div_nonneg hA (le_of_lt hf)
    set n : ℕ := Int.toNat ⌊a / fixed⌋ with hn
    have hncastK : (n : K) = ((⌊a / fixed⌋ : ℤ) : K) := by
      rw [← Int.cast_natCast, hn, Int.toNat_of_nonneg hfl0]
    have hmin : min n maxS = n := Nat.min_eq_left hcap
    have hstep : schedStep fixed maxS (a0, k0) dt = (a - (n : K) * fixed, k0 + n) := by
      simp only [schedStep, hmin, ← ha, ← hn]
    have hfloor_le : (n : K) * fixed ≤ a := by
      have h := Int.floor_le (a / fixed)
      rw [hncastK]
      calc ((⌊a / fixed⌋ : ℤ) : K) * fixed ≤ a / fixed * fixed :=
            mul_le_mul_of_nonneg_right h (le_of_lt hf)
        _ = a := div_mul_cancel₀ _ (ne_of_gt hf)
    have hfloor_lt : a < (n : K) * fixed + fixed := by
      have h := Int.lt_floor_add_one (a / fixed)
      have h2 : a < (((⌊a / fixed⌋ : ℤ) : K) + 1) * fixed := by
        have h3 := mul_lt_mul_of_pos_right h hf
        rwa [div_mul_cancel₀ _ (ne_of_gt hf)] at h3
      have h4 : (((⌊a / fixed⌋ : ℤ) : K) + 1) * fixed
          = ((⌊a / fixed⌋ : ℤ) : K) * fixed + fixed := by ring
      rw [h4] at h2
      rw [hncastK]
      linarith
    have ha1 : 0 ≤ a - (n : K) * fixed := by linarith
    have ha2 : a - (n : K) * fixed < fixed := by linarith
    rw [hmin] at hncrest
    have hIH := ih (a - (n : K) * fixed) (k0 + n) hprest ha1 ha2 hncrest
    have hrw : schedRun fixed maxS (a0, k0) (dt :: dts)
        = schedRun fixed maxS (a - (n : K) * fixed, k0 + n) dts := by
      simp only [schedRun, List.foldl_cons, hstep]
    rw [hrw]
    obtain ⟨e1, e2, e3, e4⟩ := hIH
    refine ⟨?_, e2, e3, by omega⟩
    rw [e1]
    have hsub : ((schedRun fixed maxS (a - (n : K) * fixed, k0 + n) dts).2 - k0 : ℕ)
        = ((schedRun fixed maxS (a - (n : K) * fixed, k0 + n) dts).2 - (k0 + n) : ℕ)
          + n := by
      omega
    rw [hsub, List.sum_cons, ha]
    push_cast
    ring

/-- C2 (refuted as stated): splitting a total elapsed time of `10` time
units (with `fixed_dt = 1`, `max_substeps = 8`) into ten frames of `1`
versus one frame of `10` ends with `10` versus `8` completed substeps and
accumulators `0` versus `2`: the substep counts differ by more than `±1`
and the accumulators differ by `2 ≥ fixed_dt`, because the `max_substeps`
safety cap discards catch-up work that a run with no further frames never
recovers. -/
theorem C2_framerate_counterexample :
    (schedRun (1 : ℚ) 8 (0, 0) (List.replicate 10 1)).2 = 10
    ∧ (schedRun (1 : ℚ) 8 (0, 0) [10]).2 = 8
    ∧ (schedRun (1 : ℚ) 8 (0, 0) (List.replicate 10 1)).1 = 0
    ∧ (schedRun (1 : ℚ) 8 (0, 0) [10]).1 = 2
    ∧ ¬((schedRun (1 : ℚ) 8 (0, 0) (List.replicate 10 1)).2
          ≤ (schedRun (1 : ℚ) 8 (0, 0) [10]).2 + 1)
    ∧ ¬(|(schedRun (1 : ℚ) 8 (0, 0) (List.replicate 10 1)).1
          - (schedRun (1 : ℚ) 8 (0, 0) [10]).1| < 1) := by
  norm_num [schedRun, schedStep, List.replicate]

/-- C2 (amended): for every two ways of splitting the same total elapsed
time into nonnegative frame times, *provided the `max_substeps` safety cap
never binds on any call of either run*, the two scheduler runs end with
identical accumulators and identical completed-substep counts — in
particular within the claimed `< fixed_dt` and `±1` bounds — and therefore
with identical ray states, since the physics state is a function of the
number of executed substeps. -/
theorem C2_framerate_independence_uncapped {K : Type} [LinearOrderedField K]
    [FloorRing K] (fixed : K) (hf : 0 < fixed) (maxS : ℕ) (dts1 dts2 : List K)
    (hp1 : ∀ dt ∈ dts1, 0 ≤ dt) (hp2 : ∀ dt ∈ dts2, 0 ≤ dt)
    (hsum : dts1.sum = dts2.sum)
    (hnc1 : noCap fixed maxS 0 dts1 = true)
    (hnc2 : noCap fixed maxS 0 dts2 = true) :
    schedRun fixed maxS (0, 0) dts1 = schedRun fixed maxS (0, 0) dts2
    ∧ ∀ (σ : Type) (stepPhys : σ → σ) (x : σ),
        stepPhys^[(schedRun fixed maxS (0, 0) dts1).2] x
          = stepPhys^[(schedRun fixed maxS (0, 0) dts2).2] x := by
  obtain ⟨e1, e2, e3, _⟩ := schedRun_spec fixed hf maxS dts1 0 0 hp1 le_rfl hf hnc1
  obtain ⟨f1, f2, f3, _⟩ := schedRun_spec fixed hf maxS dts2 0 0 hp2 le_rfl hf hnc2
  set r1 := schedRun fixed maxS ((0 : K), 0) dts1 with hr1
  set r2 := schedRun fixed maxS ((0 : K), 0) dts2 with hr2
  simp only [Nat.sub_zero] at e1 f1
  have hkey : r1.2 = r2.2 := by
    rcases Nat.lt_trichotomy r1.2 r2.2 with h | h | h
    · exfalso
      have hc : (r1.2 : K) + 1 ≤ (r2.2 : K) := by exact_mod_cast h
      have : r2.1 ≤ r1.1 - fixed := by
        rw [e1, f1, hsum] at *
        nlinarith [hc, hf]
      linarith
    · exact h
    · exfalso
      have hc : (r2.2 : K) + 1 ≤ (r1.2 : K) := by exact_mod_cast h
      have : r1.1 ≤ r2.1 - fixed := by
        rw [e1, f1, hsum] at *
        nlinarith [hc, hf]
      linarith
  have hacc : r1.1 = r2.1 := by
    rw [e1, f1, hsum, hkey]
  refine ⟨?_, ?_⟩
  · exact Prod.ext hacc hkey
  · intro σ stepPhys x
    rw [hkey]

theorem C2_framerate_independence_uncapped_witness :
    schedRun (1 : ℚ) 8 (0, 0) [1/2, 1/2] = schedRun (1 : ℚ) 8 (0, 0) [1] :=
  (C2_framerate_independence_uncapped (1 : ℚ) (by norm_num) 8 [1/2, 1/2] [1]
    (by norm_num) (by norm_num) (by norm_num) (by norm_num [noCap])
    (by norm_num [noCap])).1

end Scheduler

section RayModel

variable {K : Type} [LinearOrderedField K]

/-- Per-ray state of Mission 7: angle, inverse radius and its derivative,
signed impact parameter, the two state-machine flags (`_alive`,
`_finished`), and the rendered pixel position. -/
structure RayState (K : Type) where
  phi : K
  u : K
  up : K
  b : K
  alive : Bool
  finished : Bool
  pos : K × K

/-- Mission 7 parameters: the trigonometric library functions the source
calls (`np.cos`, `np.sin`) are passed in abstractly, the rest are the
mission's numeric fields. -/
structure M7Params (K : Type) where
  cosF : K → K
  sinF : K → K
  dphi : K
  M : K
  rs : K
  mpp : K
  center : K × K
  phi0 : K
  phiMax : K
  loopRays : Bool

/-- The capture margin `eps_capture = 1.001` of `_physics_substep`. -/
def epsCapture : K := 1 + 1 / 1000

/-- The guard value `1e12` used when `u ≤ 0` (radius treated as huge). -/
def bigR : K := 10 ^ (12 : ℕ)

/-- The guard value `1e-12` used in `max(u, 1e-12)` at reseed. -/
def tinyU : K := 1 / 10 ^ (12 : ℕ)

/-- Candidate next `u` of a substep: the first component of the RK4 step. -/
def rayCandidateU (p : M7Params K) (s : RayState K) : K :=
  (rk4_step s.u s.up p.M p.dphi).1

/-- Candidate radius of a substep, from `_physics_substep`:
`r_m = 1/u if u > 0 else 1e12`. -/
def rayCandidateR (p : M7Params K) (s : RayState K) : K :=
  if 0 < rayCandidateU p s then 1 / rayCandidateU p s else bigR

/-- The state a ray is reset to when looping wraps it, and the state
`_reseed_geodesics` builds per ray: `phi = phi0`, `u = sin(phi0)/b`,
`u' = cos(phi0)/b`, head placed at radius `1/max(u, 1e-12)`. -/
def reseedRay (p : M7Params K) (b : K) : RayState K :=
  let u0 := p.sinF p.phi0 / b
  let up0 := p.cosF p.phi0 / b
  let r0px := 1 / max u0 tinyU / p.mpp
  { phi := p.phi0, u := u0, up := up0, b := b, alive := true, finished := false,
    pos := (p.center.1 + r0px * p.cosF p.phi0, p.center.2 + r0px * p.sinF p.phi0) }

/-- One fixed-Δt physics tick for a single ray, transcribed from the body of
the per-ray loop in `Mission7LightBending._physics_substep`.  Returns the
new ray state together with the position recorded into the trail this tick
(`none` when the loop body skipped the ray or hit the non-looping
angular-window exit, which records nothing). -/
def raySubstep (p : M7Params K) (s : RayState K) : RayState K × Option (K × K) :=
  if s.alive = true ∧ s.finished = false then
    let up1 := (rk4_step s.u s.up p.M p.dphi).2
    let phi1 := s.phi + p.dphi
    if rayCandidateR p s ≤ epsCapture * p.rs then
      if p.loopRays then
        let s1 := reseedRay p s.b
        (s1, some s1.pos)
      else
        let rpx := epsCapture * p.rs / p.mpp
        let pos1 := (p.center.1 + rpx * p.cosF phi1, p.center.2 + rpx * p.sinF phi1)
        ({ s with alive := false, pos := pos1 }, some pos1)
    else if p.phiMax ≤ phi1 then
      if p.loopRays then
        let s1 := reseedRay p s.b
        (s1, some s1.pos)
      else
        ({ s with finished := true }, none)
    else
      let rpx := rayCandidateR p s / p.mpp
      let pos1 := (p.center.1 + rpx * p.cosF phi1, p.center.2 + rpx * p.sinF phi1)
      ({ s with phi := phi1, u := rayCandidateU p s, up := up1, pos := pos1 },
       some pos1)
  else (s, none)

/-- The state part of a substep, for iterating. -/
def stepRay (p : M7Params K) (s : RayState K) : RayState K :=
  (raySubstep p s).1

/-- C5: in non-looping mode an active ray leaves ACTIVE through the horizon
exactly when its candidate radius satisfies `r ≤ (1+ε)·r_s` with
`ε = 0.001`; at that point its rendered position is frozen at radius
`(1+ε)·r_s` (just above the horizon, at the candidate angle) and it is
CAPTURED (`alive = false`) while `finished`, `phi`, `u`, `u'` and `b` keep
their previous values; a ray that is CAPTURED or FINISHED is returned
unchanged by every future substep (so its `phi`, `u`, `u'`, position never
change), until `reseedRay` rebuilds the ray as ACTIVE. -/
theorem C5_horizon_capture_state_machine (p : M7Params K)
    (hloop : p.loopRays = false) (s : RayState K)
    (hact : s.alive = true ∧ s.finished = false) :
    (((raySubstep p s).1.alive = false) ↔ rayCandidateR p s ≤ epsCapture * p.rs)
    ∧ (rayCandidateR p s ≤ epsCapture * p.rs →
        (raySubstep p s).1.pos
          = (p.center.1 + epsCapture * p.rs / p.mpp * p.cosF (s.phi + p.dphi),
             p.center.2 + epsCapture * p.rs / p.mpp * p.sinF (s.phi + p.dphi))
        ∧ (raySubstep p s).1.finished = false
        ∧ (raySubstep p s).1.phi = s.phi
        ∧ (raySubstep p s).1.u = s.u
        ∧ (raySubstep p s).1.up = s.up
        ∧ (raySubstep p s).1.b = s.b)
    ∧ (∀ t : RayState K, ¬(t.alive = true ∧ t.finished = false) →
        raySubstep p t = (t, none) ∧ ∀ n : ℕ, (stepRay p)^[n] t = t)
    ∧ (∀ b : K, (reseedRay p b).alive = true ∧ (reseedRay p b).finished = false) := by
  refine ⟨?_, ?_, ?_, ?_⟩
  · by_cases hcap : rayCandidateR p s ≤ epsCapture * p.rs
    · simp [raySubstep, hact, hloop, hcap]
    · by_cases hfin : p.phiMax ≤ s.phi + p.dphi
      · simp [raySubstep, hact, hloop, hcap, hfin, hact.1]
      · simp [raySubstep, hact, hloop, hcap, hfin, hact.1]
  · intro hcap
    simp [raySubstep, hact, hloop, hcap]
  · intro t ht
    have h1 : raySubstep p t = (t, none) := by
      simp [raySubstep, ht]
    refine ⟨h1, ?_⟩
    intro n
    induction n with
    | zero => rfl
    | succ n ih =>
      rw [Function.iterate_succ_apply, show stepRay p t = t by simp [stepRay, h1], ih]
  · intro b
    exact ⟨rfl, rfl⟩

theorem C5_horizon_capture_state_machine_witness :
    let p : M7Params ℚ :=
      { cosF := fun x => x, sinF := fun x => x, dphi := 1, M := 0, rs := 1,
        mpp := 1, center := (0, 0), phi0 := 0, phiMax := 100, loopRays := false }
    let s : RayState ℚ :=
      { phi := 0, u := 0, up := 0, b := 1, alive := true, finished := false,
        pos := (0, 0) }
    ((raySubstep p s).1.alive = false) ↔ rayCandidateR p s ≤ epsCapture * p.rs :=
  (C5_horizon_capture_state_machine _ (by decide) _ (by decide)).1

end RayModel

section TrailWrite

variable {K : Type} [LinearOrderedField K]

/-- Default trail row (a `getD` fallback only). -/
def zeroRow : ℕ → K × K := fun _ => (0, 0)

/-- `Mission7LightBending._trail_write_single(beam_index)`: write the beam's
current position into ring row `trail_head` at the beam's column; when the
last beam (`beam_count - 1`) is written, advance the circular head. -/
def trailWriteSingle (n : ℕ) (t : Trail (ℕ → K × K)) (i : ℕ) (pt : K × K) :
    Trail (ℕ → K × K) :=
  let row := t.buf.getD t.head zeroRow
  ⟨t.buf.set t.head (Function.update row i pt),
   if i = n - 1 then (t.head + 1) % t.buf.length else t.head⟩

/-- Processing of one ray inside `_physics_substep`: step the ray and, when
the branch taken records a trail sample, write it via
`_trail_write_single`. -/
def m7Process (p : M7Params K) (n : ℕ)
    (st : (ℕ → RayState K) × Trail (ℕ → K × K)) (i : ℕ) :
    (ℕ → RayState K) × Trail (ℕ → K × K) :=
  let r := raySubstep p (st.1 i)
  (Function.update st.1 i r.1,
   match r.2 with
   | some pt => trailWriteSingle n st.2 i pt
   | none => st.2)

/-- The whole per-substep ray loop `for i in range(beam_count)` of
`_physics_substep`, threading the ray states and the trail ring. -/
def m7Substep (p : M7Params K) (n : ℕ) (st : ℕ → RayState K)
    (tr : Trail (ℕ → K × K)) : (ℕ → RayState K) × Trail (ℕ → K × K) :=
  (List.range n).foldl (m7Process p n) (st, tr)

theorem trailWriteSingle_buf_length (n : ℕ) (t : Trail (ℕ → K × K)) (i : ℕ)
    (pt : K × K) : (trailWriteSingle n t i pt).buf.length = t.buf.length := by
  simp [trailWriteSingle]

theorem trailWriteSingle_getD_other (n : ℕ) (t : Trail (ℕ → K × K)) (i : ℕ)
    (pt : K × K) (j : ℕ) (hj : j ≠ t.head) :
    (trailWriteSingle n t i pt).buf.getD j zeroRow = t.buf.getD j zeroRow := by
  simp only [trailWriteSingle]
  by_cases hjl : j < t.buf.length
  · rw [List.getD_eq_getElem _ _ (by simpa using hjl), List.getD_eq_getElem _ _ hjl]
    exact List.getElem_set_ne (Ne.symm hj) (by simpa using hjl)
  · rw [List.getD_eq_default _ _ (by simpa using Nat.le_of_not_lt hjl),
      List.getD_eq_default _ _ (Nat.le_of_not_lt hjl)]

/-- Loop invariant for the per-ray loop: as long as the last beam has not
been processed, the trail head is untouched, no ring row other than the
starting head row has been written, and the not-yet-processed rays still
hold their initial states. -/
theorem m7Substep_aux (p : M7Params K) (n : ℕ) (st : ℕ → RayState K)
    (tr : Trail (ℕ → K × K)) (m : ℕ) (hm : m + 1 ≤ n) :
    ((List.range m).foldl (m7Process p n) (st, tr)).2.head = tr.head
    ∧ ((List.range m).foldl (m7Process p n) (st, tr)).2.buf.length = tr.buf.length
    ∧ (∀ j, j ≠ tr.head →
        ((List.range m).foldl (m7Process p n) (st, tr)).2.buf.getD j zeroRow
          = tr.buf.getD j zeroRow)
    ∧ (∀ i, m ≤ i → ((List.range m).foldl (m7Process p n) (st, tr)).1 i = st i) := by
  induction m with
  | zero => exact ⟨rfl, rfl, fun j _ => rfl, fun i _ => rfl⟩
  | succ m ih =>
    obtain ⟨ih1, ih2, ih3, ih4⟩ := ih (by omega)
    rw [List.range_succ, List.foldl_append, List.foldl_cons, List.foldl_nil]
    set r := (List.range m).foldl (m7Process p n) (st, tr) with hr
    have hmne : m ≠ n - 1 := by omega
    have hstm : r.1 m = st m := ih4 m le_rfl
    constructor
    · simp only [m7Process]
      rcases hw : (raySubstep p (r.1 m)).2 with _ | pt
      · simpa using ih1
      · simp only [trailWriteSingle, if_neg hmne]
        simpa using ih1
    constructor
    · simp only [m7Process]
      rcases hw : (raySubstep p (r.1 m)).2 with _ | pt
      · simpa using ih2
      · rw [trailWriteSingle_buf_length]
        exact ih2
    constructor
    · intro j hj
      simp only [m7Process]
      rcases hw : (raySubstep p (r.1 m)).2 with _ | pt
      · simpa using ih3 j hj
      · rw [trailWriteSingle_getD_other _ _ _ _ _ (by rw [ih1]; exact hj)]
        exact ih3 j hj
    · intro i hi
      simp only [m7Process]
      rw [Function.update_noteq (by omega)]
      exact ih4 i (by omega)

/-- C8: during a fixed substep every trail write of the loop lands in the
ring row that was `head` at substep start (rows other than `head₀` are
untouched), a single `_trail_write_single(i)` writes the given position into
slot `head` at the ray's column and leaves `head` unchanged unless
`i = beam_count - 1`, and the head advances — to `(head + 1) % capacity` —
only at the write of the last beam, i.e. only after all rays' writes of the
substep are done. -/
theorem C8_trail_row_atomicity (p : M7Params K) (n : ℕ) (st : ℕ → RayState K)
    (tr : Trail (ℕ → K × K)) (hh : tr.head < tr.buf.length) (hn : 0 < n) :
    (∀ (t : Trail (ℕ → K × K)) (i : ℕ) (pt : K × K), i ≠ n - 1 →
        (trailWriteSingle n t i pt).head = t.head)
    ∧ (∀ (t : Trail (ℕ → K × K)) (pt : K × K),
        (trailWriteSingle n t (n - 1) pt).head = (t.head + 1) % t.buf.length)
    ∧ (∀ (t : Trail (ℕ → K × K)) (i : ℕ) (pt : K × K), t.head < t.buf.length →
        (trailWriteSingle n t i pt).buf.getD t.head zeroRow
          = Function.update (t.buf.getD t.head zeroRow) i pt)
    ∧ (∀ j, j ≠ tr.head →
        (m7Substep p n st tr).2.buf.getD j zeroRow = tr.buf.getD j zeroRow)
    ∧ ((m7Substep p n st tr).2.head
        = if (raySubstep p (st (n - 1))).2.isSome then (tr.head + 1) % tr.buf.length
          else tr.head) := by
  obtain ⟨a1, a2, a3, a4⟩ := m7Substep_aux p n st tr (n - 1) (by omega)
  have hran : List.range n = List.range (n - 1) ++ [n - 1] := by
    rw [← List.range_succ]
    congr 1
    omega
  have hsplit : m7Substep p n st tr
      = m7Process p n ((List.range (n - 1)).foldl (m7Process p n) (st, tr)) (n - 1) := by
    rw [m7Substep, hran, List.foldl_append, List.foldl_cons, List.foldl_nil]
  set r := (List.range (n - 1)).foldl (m7Process p n) (st, tr) with hr
  have hlast : r.1 (n - 1) = st (n - 1) := a4 _ le_rfl
  refine ⟨?_, ?_, ?_, ?_, ?_⟩
  · intro t i pt hi
    simp [trailWriteSingle, hi]
  · intro t pt
    simp [trailWriteSingle]
  · intro t i pt hht
    simp only [trailWriteSingle]
    rw [List.getD_eq_getElem _ _ (by simpa using hht)]
    exact List.getElem_set_self (by simpa using hht)
  · intro j hj
    rw [hsplit]
    simp only [m7Process, hlast]
    rcases hw : (raySubstep p (st (n - 1))).2 with _ | pt
    · simpa using a3 j hj
    · rw [trailWriteSingle_getD_other _ _ _ _ _ (by rw [a1]; exact hj)]
      exact a3 j hj
  · rw [hsplit]
    simp only [m7Process, hlast]
    rcases hw : (raySubstep p (st (n - 1))).2 with _ | pt
    · simpa using a1
    · have hhead : (trailWriteSingle n r.2 (n - 1) pt).head
          = (r.2.head + 1) % r.2.buf.length := by simp [trailWriteSingle]
      simp only [Option.isSome_some, if_true]
      simp [hhead, a1, a2]

theorem C8_trail_row_atomicity_witness :
    let p : M7Params ℚ :=
      { cosF := fun x => x, sinF := fun x => x, dphi := 1, M := 0, rs := 1,
        mpp := 1, center := (0, 0), phi0 := 0, phiMax := 100, loopRays := false }
    let st : ℕ → RayState ℚ := fun _ =>
      { phi := 0, u := 0, up := 0, b := 1, alive := false, finished := false,
        pos := (0, 0) }
    let tr : Trail (ℕ → ℚ × ℚ) := ⟨[fun _ => (0, 0)], 0⟩
    (m7Substep p 1 st tr).2.head
      = if (raySubstep p (st (1 - 1))).2.isSome then (tr.head + 1) % tr.buf.length
        else tr.head :=
  (C8_trail_row_atomicity _ 1 _ _ (by decide) (by decide)).2.2.2.2

end TrailWrite

section ImpactSeeding

variable {K : Type} [LinearOrderedField K]

/-- The clamp applied to a signed impact parameter in
`Mission7LightBending.initialize`:
`sign = np.sign(b); sign[sign == 0] = 1;`
`b = where(|b| < b_min, sign * b_min, b)`. -/
def clampImpact (bmin b : K) : K :=
  if |b| < bmin then (if b < 0 then -bmin else bmin) else b

/-- The signed impact parameter the mission seeds for ray `i` out of `n`:
vertical pixel offset `(i - (n-1)/2) * spacing` converted to meters and
clamped at `b_min = 1.10 * b_crit`. -/
def seedImpact (n : ℕ) (spacing mpp bcrit : K) (i : ℕ) : K :=
  clampImpact ((11 / 10) * bcrit) ((((i : K) - (1 / 2) * ((n : K) - 1)) * spacing) * mpp)

theorem clampImpact_abs_ge (bmin b : K) (h : 0 < bmin) :
    bmin ≤ |clampImpact bmin b| := by
  unfold clampImpact
  by_cases hlt : |b| < bmin
  · by_cases hneg : b < 0
    · rw [if_pos hlt, if_pos hneg, abs_neg, abs_of_pos h]
    · rw [if_pos hlt, if_neg hneg, abs_of_pos h]
  · rw [if_neg hlt]
    exact le_of_not_lt hlt

theorem raySubstep_preserves_b (p : M7Params K) (s : RayState K) :
    ((raySubstep p s).1).b = s.b := by
  by_cases hact : s.alive = true ∧ s.finished = false
  · by_cases hcap : rayCandidateR p s ≤ epsCapture * p.rs
    · cases hl : p.loopRays
      · simp [raySubstep, hact, hcap, hl]
      · simp [raySubstep, hact, hcap, hl, reseedRay]
    · by_cases hfin : p.phiMax ≤ s.phi + p.dphi
      · cases hl : p.loopRays
        · simp [raySubstep, hact, hcap, hfin, hl]
        · simp [raySubstep, hact, hcap, hfin, hl, reseedRay]
      · simp [raySubstep, hact, hcap, hfin]
  · simp [raySubstep, hact]

/-- C10: with a positive critical impact parameter, the clamp applied at
`initialize` (and kept by every reseed, which reuses the stored `_b_m`)
forces every stored signed impact parameter to satisfy
`|b| ≥ 1.10 · b_crit` — in particular `|b| > b_crit`, so the default batch
contains no sub-critical ray — preserves the sign of the vertical offset
(zero offset mapped to the positive bound), and the physics substep never
modifies a ray's `b`, over any number of iterated substeps. -/
theorem C10_impact_parameter_invariant (bcrit : K) (hb : 0 < bcrit) :
    (∀ b : K,
      (11 / 10) * bcrit ≤ |clampImpact ((11 / 10) * bcrit) b|
      ∧ bcrit < |clampImpact ((11 / 10) * bcrit) b|
      ∧ (0 < b → 0 < clampImpact ((11 / 10) * bcrit) b)
      ∧ (b < 0 → clampImpact ((11 / 10) * bcrit) b < 0)
      ∧ (b = 0 → clampImpact ((11 / 10) * bcrit) b = (11 / 10) * bcrit))
    ∧ (∀ (n : ℕ) (spacing mpp : K) (i : ℕ),
        bcrit < |seedImpact n spacing mpp bcrit i|)
    ∧ (∀ (p : M7Params K) (s : RayState K) (k : ℕ),
        ((stepRay p)^[k] s).b = s.b) := by
  have hbmin : 0 < (11 / 10 : K) * bcrit := by
    have h1 : (0 : K) < 11 / 10 := by norm_num
    exact mul_pos h1 hb
  refine ⟨?_, ?_, ?_⟩
  · intro b
    refine ⟨clampImpact_abs_ge _ _ hbmin, ?_, ?_, ?_, ?_⟩
    · have h1 := clampImpact_abs_ge ((11 / 10) * bcrit) b hbmin
      nlinarith
    · intro hpos
      unfold clampImpact
      by_cases hlt : |b| < (11 / 10) * bcrit
      · rw [if_pos hlt, if_neg (by linarith)]
        exact hbmin
      · rw [if_neg hlt]
        exact hpos
    · intro hneg
      unfold clampImpact
      by_cases hlt : |b| < (11 / 10) * bcrit
      · rw [if_pos hlt, if_pos hneg]
        linarith
      · rw [if_neg hlt]
        exact hneg
    · intro h0
      unfold clampImpact
      rw [if_pos (by rw [h0]; simpa using hbmin), if_neg (by rw [h0]; exact lt_irrefl 0)]
  · intro n spacing mpp i
    have h1 := clampImpact_abs_ge ((11 / 10) * bcrit)
      ((((i : K) - (1 / 2) * ((n : K) - 1)) * spacing) * mpp) hbmin
    have h2 : bcrit < (11 / 10) * bcrit := by nlinarith
    calc bcrit < (11 / 10) * bcrit := h2
      _ ≤ |seedImpact n spacing mpp bcrit i| := h1
  · intro p s k
    induction k generalizing s with
    | zero => rfl
    | succ k ih =>
      rw [Function.iterate_succ_apply]
      rw [ih (stepRay p s), stepRay, raySubstep_preserves_b]

theorem C10_impact_parameter_invariant_witness :
    (0 : ℚ) < 1
    ∧ ∀ (n : ℕ) (spacing mpp : ℚ) (i : ℕ), 1 < |seedImpact n spacing mpp 1 i| :=
  ⟨by norm_num, (C10_impact_parameter_invariant (1 : ℚ) (by norm_num)).2.1⟩

end ImpactSeeding

section Validator

variable {K : Type} [LinearOrderedField K]

/-- Mission 8 tuning constant: minimum points to run a fit. -/
def MIN_FIT_SAMPLES : ℕ := 12

/-- Mission 8 tuning constant: rolling samples kept per asymptote window. -/
def FIT_SAMPLES : ℕ := 64

/-- Measurement record of Mission 8, one per beam: the two far-field sample
windows, the `done` flag and the stored `(measured, analytic, error)`. -/
structure MeasRec (K : Type) where
  in_pts : List (K × K)
  out_pts : List (K × K)
  done : Bool
  result : Option (K × K × K)

/-- `Mission8Validation._append_fit_point`: bounded FIFO append with
capacity `FIT_SAMPLES` (oldest sample evicted). -/
def appendFitPoint (arr : List (K × K)) (pt : K × K) : List (K × K) :=
  if arr.length < FIT_SAMPLES then arr ++ [pt] else arr.tail ++ [pt]

/-- Planar dot product. -/
def dot2 (a b : K × K) : K := a.1 * b.1 + a.2 * b.2

/-- `Mission8Validation._fit_asymptote_dir`: the principal direction of the
centered point cloud comes from the library SVD, abstracted as the
parameter `pd` (returning the normalized dominant right-singular vector);
the fitted direction is then oriented along the travel direction, i.e.
flipped when its dot product with (last sample - first sample) is
negative.  Fewer than two points give the fallback `(1, 0)`. -/
def fitAsymptoteDir (pd : List (K × K) → K × K) (pts : List (K × K)) : K × K :=
  if pts.length < 2 then (1, 0)
  else
    let v := pd pts
    let first := pts.headD (0, 0)
    let last := pts.getLastD (0, 0)
    let delta : K × K := (last.1 - first.1, last.2 - first.2)
    if dot2 delta v < 0 then (-v.1, -v.2) else v

/-- `np.clip(x, -1, 1)`. -/
def clip1 (x : K) : K := max (-1) (min x 1)

/-- `Mission8Validation._compute_deflections_if_ready` restricted to one
measurement record: skip records that are done or whose windows are still
short; otherwise fit both directions, store
`(|π - arccos(clip(v_in·v_out))|, 4 M / |b|, measured - analytic)` and mark
the record done.  The library calls `np.arccos` and the constant `np.pi`
are the abstract parameters `arccosF` and `piK`. -/
def tryFinalize (pd : List (K × K) → K × K) (arccosF : K → K) (piK M b : K)
    (r : MeasRec K) : MeasRec K :=
  if r.done then r
  else if r.in_pts.length < MIN_FIT_SAMPLES then r
  else if r.out_pts.length < MIN_FIT_SAMPLES then r
  else
    let v_in := fitAsymptoteDir pd r.in_pts
    let v_out := fitAsymptoteDir pd r.out_pts
    let theta := arccosF (clip1 (dot2 v_in v_out))
    let dnum := |piK - theta|
    let dana := 4 * M / |b|
    { r with done := true, result := some (dnum, dana, dnum - dana) }

/-- C9 helper? no — C7: finalization fires exactly when both windows hold at
least `MIN_FIT_SAMPLES` points (and the record is not already done); it then
stores `deflection_measured = |π - arccos(clamp(v_in·v_out, -1, 1))|`,
`deflection_analytic = 4 M / |b|` and `error = measured - analytic`, marks
the record done, and each fitted direction is oriented from the window's
first retained sample toward its last (nonnegative dot product with the
first-to-last displacement). -/
theorem C7_finalize_fires_and_formulas (pd : List (K × K) → K × K)
    (arccosF : K → K) (piK M b : K) (r : MeasRec K) :
    ((tryFinalize pd arccosF piK M b r).done = true
      ↔ (r.done = true
          ∨ (MIN_FIT_SAMPLES ≤ r.in_pts.length ∧ MIN_FIT_SAMPLES ≤ r.out_pts.length)))
    ∧ (r.done = false → MIN_FIT_SAMPLES ≤ r.in_pts.length →
        MIN_FIT_SAMPLES ≤ r.out_pts.length →
        (tryFinalize pd arccosF piK M b r).result
          = some
            (|piK - arccosF (clip1 (dot2 (fitAsymptoteDir pd r.in_pts)
                (fitAsymptoteDir pd r.out_pts)))|,
             4 * M / |b|,
             |piK - arccosF (clip1 (dot2 (fitAsymptoteDir pd r.in_pts)
                (fitAsymptoteDir pd r.out_pts)))| - 4 * M / |b|))
    ∧ (r.done = false →
        (r.in_pts.length < MIN_FIT_SAMPLES ∨ r.out_pts.length < MIN_FIT_SAMPLES) →
        tryFinalize pd arccosF piK M b r = r)
    ∧ (∀ pts : List (K × K), 2 ≤ pts.length →
        0 ≤ dot2 (((pts.getLastD (0, 0)).1 - (pts.headD (0, 0)).1,
                   (pts.getLastD (0, 0)).2 - (pts.headD (0, 0)).2))
              (fitAsymptoteDir pd pts)) := by
  refine ⟨?_, ?_, ?_, ?_⟩
  · by_cases hd : r.done
    · simp [tryFinalize, hd]
    · by_cases h1 : r.in_pts.length < MIN_FIT_SAMPLES
      · simp only [tryFinalize, if_neg hd, if_pos h1]
        constructor
        · intro hdone
          exact absurd hdone hd
        · rintro (hdone | ⟨ha, hb⟩)
          · exact hdone
          · omega
      · by_cases h2 : r.out_pts.length < MIN_FIT_SAMPLES
        · simp only [tryFinalize, if_neg hd, if_neg h1, if_pos h2]
          constructor
          · intro hdone
            exact absurd hdone hd
          · rintro (hdone | ⟨ha, hb⟩)
            · exact hdone
            · omega
        · simp only [tryFinalize, if_neg hd, if_neg h1, if_neg h2]
          constructor
          · intro _
            exact Or.inr ⟨Nat.not_lt.mp h1, Nat.not_lt.mp h2⟩
          · intro _
            trivial
  · intro hd h1 h2
    simp [tryFinalize, hd, Nat.not_lt.mpr h1, Nat.not_lt.mpr h2]
  · intro hd h12
    rcases h12 with h1 | h2
    · simp [tryFinalize, hd, h1]
    · by_cases h1 : r.in_pts.length < MIN_FIT_SAMPLES
      · simp [tryFinalize, hd, h1]
      · simp [tryFinalize, hd, h1, h2]
  · intro pts hlen
    have hnlt : ¬pts.length < 2 := by omega
    simp only [fitAsymptoteDir, if_neg hnlt]
    by_cases hflip :
        dot2 (((pts.getLastD (0, 0)).1 - (pts.headD (0, 0)).1,
               (pts.getLastD (0, 0)).2 - (pts.headD (0, 0)).2)) (pd pts) < 0
    · rw [if_pos hflip]
      simp only [dot2] at *
      nlinarith [hflip]
    · rw [if_neg hflip]
      simp only [dot2] at *
      linarith [le_of_not_lt hflip]

theorem C7_finalize_fires_and_formulas_witness :
    let pd : List (ℚ × ℚ) → ℚ × ℚ := fun _ => (1, 0)
    let r : MeasRec ℚ :=
      { in_pts := List.replicate 12 (0, 0), out_pts := List.replicate 12 (0, 0),
        done := false, result := none }
    (tryFinalize pd (fun x => x) 3 1 2 r).result
      = some
        (|(3 : ℚ) - clip1 (dot2 (fitAsymptoteDir pd r.in_pts)
            (fitAsymptoteDir pd r.out_pts))|,
         4 * 1 / |(2 : ℚ)|,
         |(3 : ℚ) - clip1 (dot2 (fitAsymptoteDir pd r.in_pts)
            (fitAsymptoteDir pd r.out_pts))| - 4 * 1 / |(2 : ℚ)|) :=
  (C7_finalize_fires_and_formulas _ _ 3 1 2 _).2.1 rfl (by decide) (by decide)

end Validator

section ZeroMass

open Complex

/-- With zero mass the RK4 step is the degree-4 Taylor polynomial of the
rotation `u(φ) = u₀ cos φ + u₀' sin φ`, acting linearly on `(u, u')`. -/
theorem rk4_linear (u up h : ℝ) :
    (rk4_step u up 0 h).1 = (1 - h ^ 2 / 2 + h ^ 4 / 24) * u + (h - h ^ 3 / 6) * up
    ∧ (rk4_step u up 0 h).2
        = -(h - h ^ 3 / 6) * u + (1 - h ^ 2 / 2 + h ^ 4 / 24) * up := by
  constructor <;> (simp only [rk4_step, acc]; ring)

/-- The degree-4 Taylor partial sum of `exp (-h i)` in closed form. -/
theorem partial_exp_sum (h : ℝ) :
    (∑ m ∈ Finset.range 5, (-(h : ℂ) * Complex.I) ^ m / m.factorial)
      = ((1 - h ^ 2 / 2 + h ^ 4 / 24 : ℝ) : ℂ)
        + ((-(h - h ^ 3 / 6) : ℝ) : ℂ) * Complex.I := by
  have e2 : (-(h : ℂ) * Complex.I) ^ 2 = -((h : ℂ) ^ 2) := by
    rw [mul_pow, Complex.I_sq]
    ring
  have e3 : (-(h : ℂ) * Complex.I) ^ 3 = (h : ℂ) ^ 3 * Complex.I := by
    rw [pow_succ, e2]
    ring
  have e4 : (-(h : ℂ) * Complex.I) ^ 4 = (h : ℂ) ^ 4 := by
    rw [show (4 : ℕ) = 2 * 2 from rfl, pow_mul, e2]
    ring
  rw [Finset.sum_range_succ, Finset.sum_range_succ, Finset.sum_range_succ,
    Finset.sum_range_succ, Finset.sum_range_one]
  rw [pow_zero, pow_one, e2, e3, e4]
  push_cast
  norm_num [Nat.factorial]
  ring

/-- The RK4 step at zero mass, read as multiplication on `ℂ` via the
embedding `(u, u') ↦ u + u' i`. -/
theorem rk4_complex (u up h : ℝ) :
    ((rk4_step u up 0 h).1 : ℂ) + ((rk4_step u up 0 h).2 : ℂ) * Complex.I
      = (∑ m ∈ Finset.range 5, (-(h : ℂ) * Complex.I) ^ m / m.factorial)
        * ((u : ℂ) + (up : ℂ) * Complex.I) := by
  obtain ⟨l1, l2⟩ := rk4_linear u up h
  rw [l1, l2, partial_exp_sum]
  have hI : Complex.I ^ 2 = -1 := Complex.I_sq
  push_cast
  ring_nf
  rw [hI]
  ring

/-- Degree-4 Taylor truncation of `exp (-h i)` is accurate to `|h|^5/100`
for `|h| ≤ 1` (Taylor remainder at order five). -/
theorem exp_taylor5_bound (h : ℝ) (hh : |h| ≤ 1) :
    Complex.abs
        ((((1 - h ^ 2 / 2 + h ^ 4 / 24 : ℝ) : ℂ)
            + ((-(h - h ^ 3 / 6) : ℝ) : ℂ) * Complex.I)
          - Complex.exp (-(h : ℂ) * Complex.I))
      ≤ |h| ^ 5 / 100 := by
  have habs : Complex.abs (-(h : ℂ) * Complex.I) = |h| := by
    rw [map_mul, Complex.abs_I, mul_one, map_neg_eq_map, Complex.abs_ofReal]
  have hb := Complex.exp_bound
    (show Complex.abs (-(h : ℂ) * Complex.I) ≤ 1 by rw [habs]; exact hh)
    (show (0 : ℕ) < 5 by norm_num)
  rw [partial_exp_sum, habs] at hb
  have hswap :
      Complex.abs
          ((((1 - h ^ 2 / 2 + h ^ 4 / 24 : ℝ) : ℂ)
              + ((-(h - h ^ 3 / 6) : ℝ) : ℂ) * Complex.I)
            - Complex.exp (-(h : ℂ) * Complex.I))
        = Complex.abs
            (Complex.exp (-(h : ℂ) * Complex.I)
              - (((1 - h ^ 2 / 2 + h ^ 4 / 24 : ℝ) : ℂ)
                  + ((-(h - h ^ 3 / 6) : ℝ) : ℂ) * Complex.I)) := by
    rw [show (((1 - h ^ 2 / 2 + h ^ 4 / 24 : ℝ) : ℂ)
            + ((-(h - h ^ 3 / 6) : ℝ) : ℂ) * Complex.I)
          - Complex.exp (-(h : ℂ) * Complex.I)
        = -(Complex.exp (-(h : ℂ) * Complex.I)
            - (((1 - h ^ 2 / 2 + h ^ 4 / 24 : ℝ) : ℂ)
                + ((-(h - h ^ 3 / 6) : ℝ) : ℂ) * Complex.I)) from by ring,
      map_neg_eq_map]
  rw [hswap]
  refine le_trans hb (le_of_eq ?_)
  norm_num [Nat.factorial]
  ring

/-- A complex number within `β` of a unimodular number has `n`-th power
within `(1+β)^n - 1` of the unimodular power. -/
theorem pow_close_to_unit (a b : ℂ) (β : ℝ) (hbu : Complex.abs b = 1)
    (hab : Complex.abs (a - b) ≤ β) (n : ℕ) :
    Complex.abs (a ^ n - b ^ n) ≤ (1 + β) ^ n - 1 := by
  have hβ : 0 ≤ β := le_trans (AbsoluteValue.nonneg Complex.abs _) hab
  have ha : Complex.abs a ≤ 1 + β := by
    calc Complex.abs a = Complex.abs (b + (a - b)) := by congr 1; ring
      _ ≤ Complex.abs b + Complex.abs (a - b) := Complex.abs.add_le _ _
      _ ≤ 1 + β := by rw [hbu]; linarith
  induction n with
  | zero => simp
  | succ n ih =>
    have key : a ^ (n + 1) - b ^ (n + 1) = a * (a ^ n - b ^ n) + (a - b) * b ^ n := by
      ring
    calc Complex.abs (a ^ (n + 1) - b ^ (n + 1))
        = Complex.abs (a * (a ^ n - b ^ n) + (a - b) * b ^ n) := by rw [key]
      _ ≤ Complex.abs (a * (a ^ n - b ^ n)) + Complex.abs ((a - b) * b ^ n) :=
          Complex.abs.add_le _ _
      _ = Complex.abs a * Complex.abs (a ^ n - b ^ n)
          + Complex.abs (a - b) * Complex.abs b ^ n := by
          rw [map_mul, map_mul, map_pow]
      _ ≤ (1 + β) * ((1 + β) ^ n - 1) + β * 1 := by
          apply add_le_add
          · exact mul_le_mul ha ih (AbsoluteValue.nonneg _ _) (by linarith)
          · rw [hbu, one_pow, mul_one, mul_one]
            exact hab
      _ = (1 + β) ^ (n + 1) - 1 := by ring

/-- Iterating the zero-mass RK4 step is multiplication by the `n`-th power
of the Taylor factor, through the embedding `(u, u') ↦ u + u' i`. -/
theorem rk4_iter_complex (u up h : ℝ) (n : ℕ) :
    (((fun q : ℝ × ℝ => rk4_step q.1 q.2 0 h)^[n] (u, up)).1 : ℂ)
      + (((fun q : ℝ × ℝ => rk4_step q.1 q.2 0 h)^[n] (u, up)).2 : ℂ) * Complex.I
    = (∑ m ∈ Finset.range 5, (-(h : ℂ) * Complex.I) ^ m / m.factorial) ^ n
      * ((u : ℂ) + (up : ℂ) * Complex.I) := by
  induction n with
  | zero => simp
  | succ n ih =>
    rw [Function.iterate_succ_apply']
    rw [rk4_complex, ih, pow_succ]
    ring

/-- C9: with zero mass the stepped equation is `u'' = -u` (the polar form of
a straight line), and iterating the RK4 step from any `(u, u')` tracks the
closed-form rotation solution `e^{-i n h}·(u + i u')` with error at most
`(1 + |h|^5/100)^n - 1` times the initial amplitude — an `O(|h|^5)`-per-step
truncation error accumulated over the sweep (for `|h| ≤ 1`). -/
theorem C9_zero_mass_matches_rotation (u up h : ℝ) (n : ℕ) (hh : |h| ≤ 1) :
    (∀ x : ℝ, acc (0 : ℝ) x = -x)
    ∧ Complex.abs
        ((((fun q : ℝ × ℝ => rk4_step q.1 q.2 0 h)^[n] (u, up)).1 : ℂ)
          + (((fun q : ℝ × ℝ => rk4_step q.1 q.2 0 h)^[n] (u, up)).2 : ℂ) * Complex.I
          - Complex.exp (-((n : ℝ) * h : ℝ) * Complex.I)
            * ((u : ℂ) + (up : ℂ) * Complex.I))
      ≤ ((1 + |h| ^ 5 / 100) ^ n - 1)
        * Complex.abs ((u : ℂ) + (up : ℂ) * Complex.I) := by
  refine ⟨fun x => by simp [acc], ?_⟩
  have hexp : Complex.exp (-((n : ℝ) * h : ℝ) * Complex.I)
      = Complex.exp (-(h : ℂ) * Complex.I) ^ n := by
    rw [← Complex.exp_nat_mul]
    congr 1
    push_cast
    ring
  rw [rk4_iter_complex, hexp, ← sub_mul, map_mul]
  refine mul_le_mul_of_nonneg_right ?_ (AbsoluteValue.nonneg _ _)
  refine pow_close_to_unit _ _ _ ?_ ?_ n
  · rw [Complex.abs_exp]
    simp
  · have h1 := exp_taylor5_bound h hh
    rw [← partial_exp_sum h] at h1
    exact h1

theorem C9_zero_mass_matches_rotation_witness :
    (∀ x : ℝ, acc (0 : ℝ) x = -x)
    ∧ Complex.abs
        ((((fun q : ℝ × ℝ => rk4_step q.1 q.2 0 (1 : ℝ))^[1] (1, 0)).1 : ℂ)
          + (((fun q : ℝ × ℝ => rk4_step q.1 q.2 0 (1 : ℝ))^[1] (1, 0)).2 : ℂ)
            * Complex.I
          - Complex.exp (-((1 : ℕ) * (1 : ℝ) : ℝ) * Complex.I)
            * (((1 : ℝ) : ℂ) + ((0 : ℝ) : ℂ) * Complex.I))
      ≤ ((1 + |(1 : ℝ)| ^ 5 / 100) ^ 1 - 1)
        * Complex.abs (((1 : ℝ) : ℂ) + ((0 : ℝ) : ℂ) * Complex.I) :=
  C9_zero_mass_matches_rotation 1 0 1 1 (by norm_num)

end ZeroMass

end BH
